import Mathlib

/-!
Verification of the rank-coordination and placement layer of the
Horovod-on-Ray control plane (`horovod/ray/runner.py` and
`horovod/ray/strategy.py`).

The `Coordinator` keeps an insertion-ordered mapping from hostname to the
list of world ranks registered under that host; `finalize_registration`
derives cross/local rank assignments from it in two passes over the map.
Python dictionaries are embedded as association lists with
insertion-ordered keys and overwrite-in-place update, matching dict
semantics; `defaultdict(int)` lookups default to `0`.  Remote calls
(worker spawning, GPU-id queries, the placement-group wait) are embedded
by their results: the worker handles carry the values they were spawned
with, and the outcome of the bounded placement-group wait is a boolean.
-/

/-- A rank-assignment record for one world rank, as produced by
`Coordinator.finalize_registration`.  Field names follow the keys of the
Python dict. -/
structure RankInfo where
  HOROVOD_CROSS_RANK : Nat
  HOROVOD_CROSS_SIZE : Nat
  HOROVOD_LOCAL_RANK : Nat
  HOROVOD_LOCAL_SIZE : Nat
deriving DecidableEq, Repr

/-- Lookup in a `Nat`-keyed association list, defaulting to `0`: the
behaviour of Python `defaultdict(int)` (and of plain dict lookup at a key
that is guaranteed present). -/
def dictGet (l : List (Nat × Nat)) (k : Nat) : Nat :=
  match l with
  | [] => 0
  | p :: r => if p.1 = k then p.2 else dictGet r k

/-- Assignment `d[k] = v` on a `Nat`-keyed association list: overwrite in
place when the key exists, append otherwise (Python dict semantics). -/
def dictSet (l : List (Nat × Nat)) (k v : Nat) : List (Nat × Nat) :=
  match l with
  | [] => [(k, v)]
  | p :: r => if p.1 = k then (k, v) :: r else p :: dictSet r k v

/-- The `Coordinator.hostnames_by_rank` state: an insertion-ordered mapping
from hostname to the list of world ranks registered under that host
(Python `defaultdict(list)`, iterated in key-insertion order). -/
abbrev HostMap := List (String × List Nat)

/-- `Coordinator.register(hostname, world_rank)`: append `world_rank` to the
host's list, creating the host entry at the end on first appearance. -/
def register (m : HostMap) (hostname : String) (world_rank : Nat) : HostMap :=
  match m with
  | [] => [(hostname, [world_rank])]
  | p :: rest =>
      if p.1 = hostname then (p.1, p.2 ++ [world_rank]) :: rest
      else p :: register rest hostname world_rank

/-- The coordinator state reached from a fresh `Coordinator` by a finite
sequence of `register` calls. -/
def runRegs (regs : List (String × Nat)) : HostMap :=
  regs.foldl (fun m r => register m r.1 r.2) []

/-- `Coordinator.world_size`: the sum of the lengths of all hosts' rank
lists. -/
def world_size (m : HostMap) : Nat :=
  (m.map (fun p => p.2.length)).sum

/-- The state of the first pass of `finalize_registration`:
`(cross_sizes, cross_ranks)`. -/
abbrev CrossState := List (Nat × Nat) × List (Nat × Nat)

/-- One step of the first pass of `finalize_registration`:
`cross_ranks[world_rank] = cross_sizes[local_rank]` followed by
`cross_sizes[local_rank] += 1`. -/
def crossStep (st : CrossState) (local_rank world_rank : Nat) : CrossState :=
  (dictSet st.1 local_rank (dictGet st.1 local_rank + 1),
   dictSet st.2 world_rank (dictGet st.1 local_rank))

/-- The first pass of `finalize_registration` over one host's rank list,
with enumeration starting at `n` (the source uses `enumerate(rank_list)`,
i.e. `n = 0`; the generalisation supports reasoning by induction). -/
def crossHostFrom (st : CrossState) (n : Nat) (ranks : List Nat) : CrossState :=
  (ranks.enumFrom n).foldl (fun st q => crossStep st q.1 q.2) st

/-- The first pass of `finalize_registration` over one host's rank list:
`for local_rank, world_rank in enumerate(rank_list): ...`. -/
def crossHost (st : CrossState) (ranks : List Nat) : CrossState :=
  ranks.enum.foldl (fun st q => crossStep st q.1 q.2) st

/-- The first pass of `finalize_registration` over all hosts, from the empty
dictionaries: returns `(cross_sizes, cross_ranks)`. -/
def crossPass (m : HostMap) : CrossState :=
  m.foldl (fun st p => crossHost st p.2) ([], [])

/-- Assignment `rank_to_info[world_rank] = info` (Python dict semantics). -/
def infoSet (l : List (Nat × RankInfo)) (k : Nat) (v : RankInfo) :
    List (Nat × RankInfo) :=
  match l with
  | [] => [(k, v)]
  | p :: r => if p.1 = k then (k, v) :: r else p :: infoSet r k v

/-- The record built for the entry `q = (local_rank, world_rank)` of a host
with `local_size` registered ranks, given the two dictionaries computed by
the first pass. -/
def hostInfoEntry (cs cr : List (Nat × Nat)) (local_size : Nat)
    (q : Nat × Nat) : RankInfo :=
  ⟨dictGet cr q.2, dictGet cs q.1, q.1, local_size⟩

/-- The second pass of `finalize_registration` over one host: write the
record of every `(local_rank, world_rank)` of that host into
`rank_to_info`. -/
def infoHost (cs cr : List (Nat × Nat)) (info : List (Nat × RankInfo))
    (p : String × List Nat) : List (Nat × RankInfo) :=
  p.2.enum.foldl (fun info q =>
    infoSet info q.2 (hostInfoEntry cs cr p.2.length q)) info

/-- `Coordinator.finalize_registration()`: two passes over the host map; the
result is the `rank_to_info` dictionary, keyed by world rank. -/
def finalize_registration (m : HostMap) : List (Nat × RankInfo) :=
  m.foldl (infoHost (crossPass m).1 (crossPass m).2) []

/-- `Coordinator.finalize_registration()` as a state transformer on the
coordinator state: the method reads `self.hostnames_by_rank` but writes only
local variables, so the state component is returned unchanged. -/
def finalize_registrationS (m : HostMap) : List (Nat × RankInfo) × HostMap :=
  (finalize_registration m, m)

/-- Lookup in the `rank_to_info` dictionary. -/
def infoGet (l : List (Nat × RankInfo)) (k : Nat) : Option RankInfo :=
  match l with
  | [] => none
  | p :: r => if p.1 = k then some p.2 else infoGet r k

/-- The `HOROVOD_LOCAL_RANK` pushed to world rank `k` (0 when absent). -/
def infoLocalRank (l : List (Nat × RankInfo)) (k : Nat) : Nat :=
  match infoGet l k with
  | some i => i.HOROVOD_LOCAL_RANK
  | none => 0

/-- The `HOROVOD_LOCAL_SIZE` pushed to world rank `k` (0 when absent). -/
def infoLocalSize (l : List (Nat × RankInfo)) (k : Nat) : Nat :=
  match infoGet l k with
  | some i => i.HOROVOD_LOCAL_SIZE
  | none => 0

/-- The keys of the `rank_to_info` dictionary, in insertion order. -/
def infoKeys (l : List (Nat × RankInfo)) : List Nat :=
  l.map (fun p => p.1)

/-- All world ranks appearing in the host map, in iteration order. -/
def allRanks (m : HostMap) : List Nat :=
  m.flatMap (fun p => p.2)

/-- Number of hosts whose registered rank list has length greater than `j`
(the final value of `cross_sizes[j]`). -/
def countAtLeast (m : HostMap) (j : Nat) : Nat :=
  m.countP (fun p => decide (j < p.2.length))

/-- Closed form of `finalize_registration` on a host map with globally
distinct world ranks: the host list is traversed with `pre` the hosts
already seen and `M` the full map; the entry of the rank at position
`local_rank` of a host records `cross_rank` = number of earlier hosts
reaching that position and `cross_size` = total number of hosts reaching
that position. -/
def finalizeSpecAux (M : HostMap) : HostMap → HostMap → List (Nat × RankInfo)
  | _, [] => []
  | pre, p :: rest =>
      p.2.enum.map (fun q =>
        (q.2, ⟨countAtLeast pre q.1, countAtLeast M q.1, q.1, p.2.length⟩))
        ++ finalizeSpecAux M (pre ++ [p]) rest

/-- Python truthiness of an optional integer constructor argument:
`None` and `0` are falsy. -/
def truthy : Option Int → Bool
  | none => false
  | some n => decide (n ≠ 0)

/-- Whether an embedded call raised. -/
def raises {α : Type} (r : Except String α) : Bool :=
  match r with
  | Except.error _ => true
  | Except.ok _ => false

/-- The validation prefix of `RayExecutor.__init__` (deprecated arguments
`num_slots`, `cpus_per_slot`, `gpus_per_slot` not passed): the four `raise
ValueError` checks, in source order, as a fallible computation.  `if x:`
on an optional integer is Python truthiness; `isinstance(gpus_per_worker,
int)` holds exactly when the argument is an integer rather than `None`. -/
def rayExecutorValidate (num_workers num_hosts : Option Int) (use_gpu : Bool)
    (gpus_per_worker : Option Int) : Except String Unit :=
  if num_workers = none ∧ num_hosts = none then
    Except.error "Either num_workers or num_hosts must be set."
  else if truthy num_workers ∧ truthy num_hosts then
    Except.error "Both num_workers and num_hosts cannot be set."
  else if truthy gpus_per_worker ∧ use_gpu = false then
    Except.error "gpus_per_worker is set, but use_gpu is False."
  else if use_gpu = true ∧ (match gpus_per_worker with
      | some g => decide (g < 1)
      | none => false) = true then
    Except.error "gpus_per_worker must be >= 1."
  else Except.ok ()

/-- A worker handle as created by the strategies: the values passed to the
remote constructor (`world_rank`, `world_size`) and the bundle the worker
was placed on. -/
structure SpawnedWorker where
  bundle_index : Nat
  world_rank : Nat
  world_size : Nat
deriving DecidableEq, Repr

/-- The worker-spawning loop of `ColocatedStrategy.create_workers`: for each
of the `num_hosts` bundles, spawn `num_workers_per_host` workers with
`world_rank = num_workers_per_host * bundle_index + i` and
`world_size = num_hosts * num_workers_per_host`, appending to
`self.workers` in loop order. -/
def colocated_create_workers (num_hosts num_workers_per_host : Nat) :
    List SpawnedWorker :=
  (List.range num_hosts).flatMap (fun bundle_index =>
    (List.range num_workers_per_host).map (fun i =>
      ⟨bundle_index, num_workers_per_host * bundle_index + i,
        num_hosts * num_workers_per_host⟩))

/-- The worker-spawning loop of `PackStrategy.create_workers`: one bundle
per worker, `world_rank = bundle_index`, `world_size = num_workers`. -/
def pack_create_workers (num_workers : Nat) : List SpawnedWorker :=
  (List.range num_workers).map (fun bundle_index =>
    ⟨bundle_index, bundle_index, num_workers⟩)

/-- The per-bundle GPU-visibility reconciliation of
`ColocatedStrategy.create_workers` in GPU mode, on the device-id lists
collected from the bundle's workers: `gpu_ids = sum(lists, [])` is their
concatenation; the assertion `len(gpu_ids) == len(set(gpu_ids)) ==
num_workers_per_host` fails with `AssertionError` (embedded as `none`);
on success every worker of the bundle receives the full id list as its new
`CUDA_VISIBLE_DEVICES` (embedded as the list of per-worker pushed values). -/
def reconcile_gpu_ids (num_workers_per_host : Nat)
    (id_lists : List (List Int)) : Option (List (List Int)) :=
  let gpu_ids := id_lists.flatMap (fun l => l)
  if gpu_ids.length = gpu_ids.dedup.length ∧
      gpu_ids.dedup.length = num_workers_per_host then
    some (id_lists.map (fun _ => gpu_ids))
  else none

/-- Rendering of one bundle's resource request in the timeout message. -/
def resourceRepr (r : List (String × Nat)) : String :=
  String.intercalate ", " (r.map (fun p => p.1 ++ ": " ++ toString p.2))

/-- Rendering of `pg.bundle_specs` in the timeout message. -/
def bundlesRepr (bs : List (List (String × Nat))) : String :=
  String.intercalate "; " (bs.map resourceRepr)

/-- `create_placement_group`: build `num_bundles` copies of the per-bundle
resource request and wait, up to `pg_timeout`, for the group scheduled
under `pg_strategy`.  The outcome of the bounded `ray.wait` is embedded as
the boolean `ready`, and the scheduler's `ray.available_resources()` as
the string `available`.
When the group is not ready in time, a `TimeoutError` is raised whose
message reports the currently available resources and the requested
bundles. -/
def create_placement_group (resources_per_bundle : List (String × Nat))
    (num_bundles _pg_timeout : Nat) (_pg_strategy : String) (ready : Bool)
    (available : String) : Except String (List (List (String × Nat))) :=
  let bundles := (List.range num_bundles).map (fun _ => resources_per_bundle)
  if ready then Except.ok bundles
  else Except.error
    ("Placement group creation timed out. Make sure your cluster either has "
      ++ "enough resources or use an autoscaling cluster. Current resources "
      ++ "available: " ++ available
      ++ ", resources requested by the placement group: " ++ bundlesRepr bundles)

/-- Substring containment, used to state that an error message reports a
value. -/
def containsStr (s t : String) : Prop :=
  ∃ a b, s = a ++ t ++ b

/-- A worker handle as seen by `BaseStrategy.get_node_workers`: its host
identity (the result of `w.hostname.remote()`) and an identifying tag. -/
structure RayWorker where
  hostname : String
  wid : Nat
deriving DecidableEq, Repr

/-- Assignment `host_worker_map[hostname] = worker` (Python dict
semantics). -/
def hostWorkerMapSet (m : List (String × RayWorker)) (k : String)
    (w : RayWorker) : List (String × RayWorker) :=
  match m with
  | [] => [(k, w)]
  | p :: r => if p.1 = k then (k, w) :: r else p :: hostWorkerMapSet r k w

/-- `BaseStrategy.get_node_workers(workers)`: build
`host_worker_map[hostname] = worker` over the workers in list order and
return `list(host_worker_map.values())`. -/
def get_node_workers (workers : List RayWorker) : List RayWorker :=
  (workers.foldl (fun m w => hostWorkerMapSet m w.hostname w) []).map
    (fun p => p.2)

/-! ## Dictionary lemmas -/

theorem dictGet_dictSet (l : List (Nat × Nat)) (k v k' : Nat) :
    dictGet (dictSet l k v) k' = if k = k' then v else dictGet l k' := by
  induction l with
  | nil => simp [dictSet, dictGet]
  | cons p r ih =>
      by_cases hp : p.1 = k <;> by_cases hk : k = k' <;>
        simp_all [dictSet, dictGet]

/-! ## First pass of `finalize_registration`: characterisation -/

theorem crossHost_eq_from (st : CrossState) (ranks : List Nat) :
    crossHost st ranks = crossHostFrom st 0 ranks := rfl

theorem crossHostFrom_cons (st : CrossState) (n : Nat) (r : Nat)
    (rs : List Nat) :
    crossHostFrom st n (r :: rs) = crossHostFrom (crossStep st n r) (n + 1) rs := by
  simp [crossHostFrom]

theorem dictGet_crossHostFrom_cs (ranks : List Nat) :
    ∀ (n : Nat) (st : CrossState) (k : Nat),
      dictGet (crossHostFrom st n ranks).1 k =
        dictGet st.1 k + (if n ≤ k ∧ k < n + ranks.length then 1 else 0) := by
  induction ranks with
  | nil =>
      intro n st k
      have hno : ¬(n ≤ k ∧ k < n + ([] : List Nat).length) := by
        simp
      simp [crossHostFrom, hno]
  | cons r rs ih =>
      intro n st k
      rw [crossHostFrom_cons, ih]
      have hstep : (crossStep st n r).1 = dictSet st.1 n (dictGet st.1 n + 1) := rfl
      rw [hstep, dictGet_dictSet]
      by_cases hnk : n = k
      · subst hnk
        simp [List.length_cons]
      · simp [List.length_cons]
        split_ifs <;> omega

theorem dictGet_crossHostFrom_cr_not_mem (ranks : List Nat) :
    ∀ (n : Nat) (st : CrossState) (k : Nat), k ∉ ranks →
      dictGet (crossHostFrom st n ranks).2 k = dictGet st.2 k := by
  induction ranks with
  | nil => intro n st k _; simp [crossHostFrom]
  | cons r rs ih =>
      intro n st k hk
      rw [crossHostFrom_cons, ih (n + 1) _ k (fun h => hk (List.mem_cons_of_mem _ h))]
      have hstep : (crossStep st n r).2 = dictSet st.2 r (dictGet st.1 n) := rfl
      rw [hstep, dictGet_dictSet, if_neg]
      intro h
      exact hk (h ▸ List.mem_cons_self r rs)

theorem dictGet_crossHostFrom_cr (r₁ : List Nat) :
    ∀ (r₂ : List Nat) (n : Nat) (st : CrossState) (k : Nat), k ∉ r₂ →
      dictGet (crossHostFrom st n (r₁ ++ k :: r₂)).2 k =
        dictGet st.1 (n + r₁.length) := by
  induction r₁ with
  | nil =>
      intro r₂ n st k hk
      rw [List.nil_append, crossHostFrom_cons,
        dictGet_crossHostFrom_cr_not_mem r₂ (n + 1) _ k hk]
      have hstep : (crossStep st n k).2 = dictSet st.2 k (dictGet st.1 n) := rfl
      rw [hstep, dictGet_dictSet, if_pos rfl]
      simp
  | cons a r₁' ih =>
      intro r₂ n st k hk
      rw [List.cons_append, crossHostFrom_cons, ih r₂ (n + 1) _ k hk]
      have hstep : (crossStep st n a).1 = dictSet st.1 n (dictGet st.1 n + 1) := rfl
      rw [hstep, dictGet_dictSet, if_neg (by omega)]
      have harith : n + 1 + r₁'.length = n + (a :: r₁').length := by
        simp [List.length_cons]; omega
      rw [harith]

theorem countAtLeast_nil (k : Nat) : countAtLeast [] k = 0 := rfl

theorem countAtLeast_cons (p : String × List Nat) (hs : HostMap) (k : Nat) :
    countAtLeast (p :: hs) k =
      (if k < p.2.length then 1 else 0) + countAtLeast hs k := by
  simp [countAtLeast, List.countP_cons]
  split_ifs <;> omega

theorem countAtLeast_append (m₁ m₂ : HostMap) (k : Nat) :
    countAtLeast (m₁ ++ m₂) k = countAtLeast m₁ k + countAtLeast m₂ k := by
  simp [countAtLeast, List.countP_append]

theorem dictGet_crossPass_cs_aux (hosts : List (String × List Nat)) :
    ∀ (st : CrossState) (k : Nat),
      dictGet (hosts.foldl (fun st p => crossHost st p.2) st).1 k =
        dictGet st.1 k + countAtLeast hosts k := by
  induction hosts with
  | nil => intro st k; simp [countAtLeast_nil]
  | cons p hs ih =>
      intro st k
      rw [List.foldl_cons, ih, crossHost_eq_from,
        dictGet_crossHostFrom_cs p.2 0 st k, countAtLeast_cons]
      simp only [Nat.zero_le, true_and, Nat.zero_add]
      omega

theorem dictGet_crossPass_cs (m : HostMap) (k : Nat) :
    dictGet (crossPass m).1 k = countAtLeast m k := by
  have h := dictGet_crossPass_cs_aux m (([], []) : CrossState) k
  simpa [crossPass, dictGet] using h

theorem allRanks_cons (p : String × List Nat) (hs : HostMap) :
    allRanks (p :: hs) = p.2 ++ allRanks hs := by
  simp [allRanks]

theorem allRanks_append (m₁ m₂ : HostMap) :
    allRanks (m₁ ++ m₂) = allRanks m₁ ++ allRanks m₂ := by
  simp [allRanks]

theorem dictGet_crossPass_cr_not_mem (hosts : List (String × List Nat)) :
    ∀ (st : CrossState) (k : Nat), k ∉ allRanks hosts →
      dictGet (hosts.foldl (fun st p => crossHost st p.2) st).2 k =
        dictGet st.2 k := by
  induction hosts with
  | nil => intro st k _; rfl
  | cons p hs ih =>
      intro st k hk
      rw [allRanks_cons, List.mem_append] at hk
      push_neg at hk
      rw [List.foldl_cons, ih _ k hk.2, crossHost_eq_from,
        dictGet_crossHostFrom_cr_not_mem p.2 0 st k hk.1]

theorem dictGet_crossPass_cr (m₁ m₂ : HostMap) (h : String) (r₁ r₂ : List Nat)
    (k : Nat) (hk₂ : k ∉ r₂) (hkm₂ : k ∉ allRanks m₂) :
    dictGet (crossPass (m₁ ++ (h, r₁ ++ k :: r₂) :: m₂)).2 k =
      countAtLeast m₁ r₁.length := by
  rw [crossPass, List.foldl_append, List.foldl_cons]
  rw [dictGet_crossPass_cr_not_mem m₂ _ k hkm₂]
  rw [crossHost_eq_from, dictGet_crossHostFrom_cr r₁ r₂ 0 _ k hk₂]
  have h0 : (0 : Nat) + r₁.length = r₁.length := by omega
  rw [h0]
  have hcs := dictGet_crossPass_cs_aux m₁ (([], []) : CrossState) r₁.length
  simpa [dictGet] using hcs

/-! ## Second pass of `finalize_registration`: characterisation -/

theorem infoKeys_append (l₁ l₂ : List (Nat × RankInfo)) :
    infoKeys (l₁ ++ l₂) = infoKeys l₁ ++ infoKeys l₂ := by
  simp [infoKeys]

theorem infoSet_not_mem (l : List (Nat × RankInfo)) (k : Nat) (v : RankInfo)
    (hk : k ∉ infoKeys l) : infoSet l k v = l ++ [(k, v)] := by
  induction l with
  | nil => rfl
  | cons p r ih =>
      simp only [infoKeys, List.map_cons, List.mem_cons] at hk
      push_neg at hk
      rw [infoSet, if_neg (fun h => hk.1 h.symm), ih]
      · rfl
      · simpa [infoKeys] using hk.2

theorem enumFrom_foldl_infoSet (g : Nat × Nat → RankInfo) (ranks : List Nat) :
    ∀ (n : Nat) (info : List (Nat × RankInfo)),
      ranks.Nodup → (∀ k ∈ ranks, k ∉ infoKeys info) →
      (ranks.enumFrom n).foldl (fun info q => infoSet info q.2 (g q)) info
        = info ++ (ranks.enumFrom n).map (fun q => (q.2, g q)) := by
  induction ranks with
  | nil => intro n info _ _; simp
  | cons r rs ih =>
      intro n info hnd hdisj
      rw [List.enumFrom_cons, List.foldl_cons, List.map_cons]
      have hset : infoSet info r (g (n, r)) = info ++ [(r, g (n, r))] :=
        infoSet_not_mem info r _ (hdisj r (List.mem_cons_self r rs))
      simp only at hset
      rw [hset, ih (n + 1) _ (List.nodup_cons.mp hnd).2]
      · rw [List.append_assoc]
        rfl
      · intro k hk
        rw [infoKeys_append, List.mem_append]
        push_neg
        refine ⟨hdisj k (List.mem_cons_of_mem _ hk), ?_⟩
        simp only [infoKeys, List.map_cons, List.map_nil, List.mem_singleton]
        intro hkr
        exact (List.nodup_cons.mp hnd).1 (hkr ▸ hk)

theorem infoHost_eq_append (cs cr : List (Nat × Nat))
    (info : List (Nat × RankInfo)) (p : String × List Nat)
    (hnd : p.2.Nodup) (hdisj : ∀ k ∈ p.2, k ∉ infoKeys info) :
    infoHost cs cr info p
      = info ++ p.2.enum.map (fun q => (q.2, hostInfoEntry cs cr p.2.length q)) := by
  rw [infoHost, List.enum_eq_enumFrom]
  exact enumFrom_foldl_infoSet _ p.2 0 info hnd hdisj

theorem foldl_infoHost (cs cr : List (Nat × Nat))
    (hosts : List (String × List Nat)) :
    ∀ (info : List (Nat × RankInfo)),
      (allRanks hosts).Nodup → (∀ k ∈ allRanks hosts, k ∉ infoKeys info) →
      hosts.foldl (infoHost cs cr) info
        = info ++ hosts.flatMap (fun p =>
            p.2.enum.map (fun q => (q.2, hostInfoEntry cs cr p.2.length q))) := by
  induction hosts with
  | nil => intro info _ _; simp
  | cons p hs ih =>
      intro info hnd hdisj
      rw [allRanks_cons] at hnd hdisj
      obtain ⟨hnd₁, hnd₂, hdj⟩ := List.nodup_append.mp hnd
      rw [List.foldl_cons,
        infoHost_eq_append cs cr info p hnd₁
          (fun k hk => hdisj k (List.mem_append_left _ hk))]
      rw [ih _ hnd₂]
      · rw [List.flatMap_cons, List.append_assoc]
      · intro k hk
        rw [infoKeys_append, List.mem_append]
        push_neg
        refine ⟨hdisj k (List.mem_append_right _ hk), ?_⟩
        intro hmem
        simp only [infoKeys, List.map_map] at hmem
        have : k ∈ p.2 := by
          have hfst :
              (p.2.enum.map (fun q => (q.2, hostInfoEntry cs cr p.2.length q))).map
                  (fun e => e.1) = p.2 := by
            rw [List.map_map]
            have : ((fun e => e.1) ∘ fun q : Nat × Nat =>
                ((q.2, hostInfoEntry cs cr p.2.length q) : Nat × RankInfo)) =
                Prod.snd := by
              funext q
              rfl
            rw [List.enum_eq_enumFrom, this, List.enumFrom_map_snd]
          rw [← hfst]
          simpa [infoKeys] using hmem
        exact hdj this hk

theorem not_mem_of_nodup_middle {α : Type} {l₁ l₂ : List α} {a : α}
    (h : (l₁ ++ a :: l₂).Nodup) : a ∉ l₂ :=
  (List.nodup_cons.mp h.of_append_right).1

theorem host_entries_eq (M : HostMap) (hnd : (allRanks M).Nodup)
    (pre : HostMap) (hst : String) (rest : HostMap) (ranks' : List Nat) :
    ∀ (r₁ : List Nat), M = pre ++ (hst, r₁ ++ ranks') :: rest →
      (ranks'.enumFrom r₁.length).map (fun q =>
          (q.2, hostInfoEntry (crossPass M).1 (crossPass M).2
            (r₁ ++ ranks').length q))
        = (ranks'.enumFrom r₁.length).map (fun q =>
          (q.2, (⟨countAtLeast pre q.1, countAtLeast M q.1, q.1,
            (r₁ ++ ranks').length⟩ : RankInfo))) := by
  induction ranks' with
  | nil => intro r₁ _; simp
  | cons k ks ih =>
      intro r₁ hM
      have hflat : allRanks M =
          (allRanks pre ++ r₁) ++ k :: (ks ++ allRanks rest) := by
        rw [hM, allRanks_append, allRanks_cons]
        simp
      have hk : k ∉ ks ++ allRanks rest :=
        not_mem_of_nodup_middle (hflat ▸ hnd)
      rw [List.mem_append] at hk
      push_neg at hk
      have hcr : dictGet (crossPass M).2 k = countAtLeast pre r₁.length := by
        rw [hM]
        exact dictGet_crossPass_cr pre rest hst r₁ ks k hk.1 hk.2
      rw [List.enumFrom_cons, List.map_cons, List.map_cons]
      congr 1
      · have hcs := dictGet_crossPass_cs M r₁.length
        simp only [hostInfoEntry, hcr, hcs]
      · have hM' : M = pre ++ (hst, (r₁ ++ [k]) ++ ks) :: rest := by
          rw [hM, List.append_assoc]
          rfl
        have := ih (r₁ ++ [k]) hM'
        simpa [List.length_append, List.append_assoc] using this

theorem flatMap_entries_eq_specAux (M : HostMap) (hnd : (allRanks M).Nodup) :
    ∀ (rest pre : HostMap), M = pre ++ rest →
      rest.flatMap (fun p => p.2.enum.map (fun q =>
          (q.2, hostInfoEntry (crossPass M).1 (crossPass M).2 p.2.length q)))
        = finalizeSpecAux M pre rest := by
  intro rest
  induction rest with
  | nil => intro pre _; simp [finalizeSpecAux]
  | cons p hs ih =>
      intro pre hM
      rw [List.flatMap_cons, finalizeSpecAux]
      congr 1
      · have := host_entries_eq M hnd pre p.1 hs p.2 []
          (by simpa using hM)
        simpa [List.enum_eq_enumFrom] using this
      · exact ih (pre ++ [p]) (by rw [hM]; simp)

theorem finalize_registration_eq_specAux (M : HostMap)
    (hnd : (allRanks M).Nodup) :
    finalize_registration M = finalizeSpecAux M [] M := by
  rw [finalize_registration,
    foldl_infoHost (crossPass M).1 (crossPass M).2 M [] hnd
      (by intro k _ hk; simp [infoKeys] at hk)]
  rw [List.nil_append]
  exact flatMap_entries_eq_specAux M hnd M [] rfl

/-! ## Reachable coordinator states -/

theorem allRanks_register_perm (m : HostMap) (h : String) (r : Nat) :
    (allRanks (register m h r)).Perm (allRanks m ++ [r]) := by
  induction m with
  | nil => simp [register, allRanks]
  | cons p rest ih =>
      by_cases hp : p.1 = h
      · simp only [register, if_pos hp, allRanks_cons]
        rw [List.append_assoc, List.append_assoc]
        exact List.Perm.append_left p.2 List.perm_append_comm
      · simp only [register, if_neg hp, allRanks_cons]
        rw [List.append_assoc]
        exact List.Perm.append_left p.2 ih

theorem allRanks_foldl_register_perm (regs : List (String × Nat)) :
    ∀ (m : HostMap),
      (allRanks (regs.foldl (fun m r => register m r.1 r.2) m)).Perm
        (allRanks m ++ regs.map Prod.snd) := by
  induction regs with
  | nil => intro m; simp
  | cons r rs ih =>
      intro m
      rw [List.foldl_cons, List.map_cons]
      refine (ih (register m r.1 r.2)).trans ?_
      have h2 := (allRanks_register_perm m r.1 r.2).append_right (rs.map Prod.snd)
      refine h2.trans ?_
      rw [List.append_assoc]
      exact List.Perm.refl _

theorem nodup_allRanks_runRegs (regs : List (String × Nat))
    (h : (regs.map Prod.snd).Nodup) : (allRanks (runRegs regs)).Nodup := by
  have hp := allRanks_foldl_register_perm regs []
  rw [runRegs]
  exact hp.nodup_iff.mpr (by simpa [allRanks] using h)

theorem register_lists_ne_nil (m : HostMap) (h : String) (r : Nat)
    (hm : ∀ p ∈ m, p.2 ≠ []) : ∀ p ∈ register m h r, p.2 ≠ [] := by
  induction m with
  | nil =>
      intro p hp
      simp only [register, List.mem_singleton] at hp
      subst hp
      simp
  | cons q rest ih =>
      intro p hp
      by_cases hq : q.1 = h
      · simp only [register, if_pos hq, List.mem_cons] at hp
        rcases hp with hp | hp
        · subst hp; simp
        · exact hm p (List.mem_cons_of_mem _ hp)
      · simp only [register, if_neg hq, List.mem_cons] at hp
        rcases hp with hp | hp
        · subst hp; exact hm p (List.mem_cons_self _ _)
        · exact ih (fun p hp => hm p (List.mem_cons_of_mem _ hp)) p hp

theorem runRegs_lists_ne_nil (regs : List (String × Nat)) :
    ∀ p ∈ runRegs regs, p.2 ≠ [] := by
  suffices h : ∀ (m : HostMap), (∀ p ∈ m, p.2 ≠ []) →
      ∀ p ∈ regs.foldl (fun m r => register m r.1 r.2) m, p.2 ≠ [] by
    exact h [] (by simp)
  induction regs with
  | nil => intro m hm; exact hm
  | cons r rs ih =>
      intro m hm
      rw [List.foldl_cons]
      exact ih (register m r.1 r.2) (register_lists_ne_nil m r.1 r.2 hm)

/-! ## Cross ranks at a fixed local rank enumerate a contiguous range -/

theorem enumFrom_filter_fst_map {β : Type} (c : Nat → β) (L : Nat)
    (ranks : List Nat) :
    ∀ (n : Nat),
      (((ranks.enumFrom n).filter (fun q => q.1 == L)).map (fun q => c q.1))
        = if n ≤ L ∧ L < n + ranks.length then [c L] else [] := by
  induction ranks with
  | nil =>
      intro n
      rw [if_neg (by simp)]
      simp
  | cons r rs ih =>
      intro n
      rw [List.enumFrom_cons]
      by_cases hn : n = L
      · subst hn
        rw [List.filter_cons_of_pos (by simp), List.map_cons, ih (n + 1),
          if_neg (by omega), if_pos (by simp)]
      · rw [List.filter_cons_of_neg (by simpa using hn), ih (n + 1)]
        by_cases hc : n + 1 ≤ L ∧ L < n + 1 + rs.length
        · rw [if_pos hc, if_pos (by simp; omega)]
        · rw [if_neg hc, if_neg (by simp; omega)]

theorem specAux_filter_map (M : HostMap) (L : Nat) :
    ∀ (rest pre : HostMap),
      ((finalizeSpecAux M pre rest).filter
          (fun en => en.2.HOROVOD_LOCAL_RANK == L)).map
        (fun en => en.2.HOROVOD_CROSS_RANK)
      = List.range' (countAtLeast pre L) (countAtLeast rest L) := by
  intro rest
  induction rest with
  | nil => intro pre; simp [finalizeSpecAux, countAtLeast_nil]
  | cons p hs ih =>
      intro pre
      rw [finalizeSpecAux, List.filter_append, List.map_append, ih (pre ++ [p])]
      rw [List.filter_map, List.map_map]
      have hcomp :
          (((fun en : Nat × RankInfo => en.2.HOROVOD_CROSS_RANK) ∘ fun q : Nat × Nat =>
            ((q.2, ⟨countAtLeast pre q.1, countAtLeast M q.1, q.1, p.2.length⟩) :
              Nat × RankInfo))) = fun q : Nat × Nat => countAtLeast pre q.1 := rfl
      have hpred :
          ((fun en : Nat × RankInfo => en.2.HOROVOD_LOCAL_RANK == L) ∘ fun q : Nat × Nat =>
            ((q.2, ⟨countAtLeast pre q.1, countAtLeast M q.1, q.1, p.2.length⟩) :
              Nat × RankInfo)) = fun q : Nat × Nat => q.1 == L := rfl
      rw [hcomp, hpred, List.enum_eq_enumFrom,
        enumFrom_filter_fst_map (fun j => countAtLeast pre j) L p.2 0]
      rw [countAtLeast_cons, countAtLeast_append, countAtLeast_cons,
        countAtLeast_nil]
      by_cases hL : L < p.2.length
      · have h1 : 0 ≤ L ∧ L < 0 + p.2.length := by omega
        rw [if_pos h1, if_pos hL]
        have ht : (1 : Nat) + countAtLeast hs L = countAtLeast hs L + 1 := by omega
        rw [ht, List.range'_succ]
        simp
      · have h1 : ¬(0 ≤ L ∧ L < 0 + p.2.length) := by omega
        rw [if_neg h1, if_neg hL]
        simp

theorem specAux_cross_size (M : HostMap) :
    ∀ (rest pre : HostMap) (en : Nat × RankInfo),
      en ∈ finalizeSpecAux M pre rest →
      en.2.HOROVOD_CROSS_SIZE = countAtLeast M en.2.HOROVOD_LOCAL_RANK := by
  intro rest
  induction rest with
  | nil => intro pre en hen; simp [finalizeSpecAux] at hen
  | cons p hs ih =>
      intro pre en hen
      rw [finalizeSpecAux, List.mem_append] at hen
      rcases hen with hen | hen
      · obtain ⟨q, _, rfl⟩ := List.mem_map.mp hen
        rfl
      · exact ih (pre ++ [p]) en hen

/-- Claim C1 (amended: the world ranks passed to `register` are pairwise
distinct, as the orchestrator guarantees): for every such registration
sequence and every local rank `L`, the `HOROVOD_CROSS_RANK` values of the
entries of `finalize_registration` whose `HOROVOD_LOCAL_RANK` is `L` are,
in order, exactly `0, ..., s-1`, where `s` is the number of hosts whose
registered rank list has length greater than `L`; and every such entry's
`HOROVOD_CROSS_SIZE` equals `s`. -/
theorem claim_C1 (regs : List (String × Nat))
    (hnd : (regs.map Prod.snd).Nodup) (L : Nat) :
    (((finalize_registration (runRegs regs)).filter
        (fun en => en.2.HOROVOD_LOCAL_RANK == L)).map
      (fun en => en.2.HOROVOD_CROSS_RANK))
      = List.range (countAtLeast (runRegs regs) L)
    ∧ ∀ en ∈ finalize_registration (runRegs regs),
        en.2.HOROVOD_LOCAL_RANK = L →
        en.2.HOROVOD_CROSS_SIZE = countAtLeast (runRegs regs) L := by
  have hn : (allRanks (runRegs regs)).Nodup := nodup_allRanks_runRegs regs hnd
  rw [finalize_registration_eq_specAux _ hn]
  constructor
  · rw [specAux_filter_map, countAtLeast_nil, List.range_eq_range']
  · intro en hen hL
    rw [← hL]
    exact specAux_cross_size _ _ _ en hen

/-- Witness for claim C1 at the registration sequence
`A:0, A:1, B:2` and local rank `0`. -/
theorem claim_C1_witness :
    (((finalize_registration (runRegs [("A", 0), ("A", 1), ("B", 2)])).filter
        (fun en => en.2.HOROVOD_LOCAL_RANK == 0)).map
      (fun en => en.2.HOROVOD_CROSS_RANK))
      = List.range (countAtLeast (runRegs [("A", 0), ("A", 1), ("B", 2)]) 0) :=
  (claim_C1 [("A", 0), ("A", 1), ("B", 2)] (by decide) 0).1

/-- Counterexample to claim C1 as stated (over every finite sequence of
`register` calls): registering the same world rank 0 under two hosts makes
the second write overwrite the first in `rank_to_info`, so cross rank `0`
is missing from the entries at local rank `0` even though
`cross_size = 2`. -/
theorem claim_C1_counterexample :
    0 ∈ List.range (countAtLeast (runRegs [("A", 0), ("B", 0)]) 0) ∧
    0 ∉ ((finalize_registration (runRegs [("A", 0), ("B", 0)])).filter
        (fun en => en.2.HOROVOD_LOCAL_RANK == 0)).map
      (fun en => en.2.HOROVOD_CROSS_RANK) := by decide

/-! ## Lookup in the finalized dictionary -/

theorem infoGet_append_some (l₁ l₂ : List (Nat × RankInfo)) (k : Nat)
    (v : RankInfo) (h : infoGet l₁ k = some v) :
    infoGet (l₁ ++ l₂) k = some v := by
  induction l₁ with
  | nil => simp [infoGet] at h
  | cons p r ih =>
      rw [infoGet] at h
      by_cases hp : p.1 = k
      · rw [if_pos hp] at h
        rw [List.cons_append, infoGet, if_pos hp]
        exact h
      · rw [if_neg hp] at h
        rw [List.cons_append, infoGet, if_neg hp]
        exact ih h

theorem infoGet_append_none (l₁ l₂ : List (Nat × RankInfo)) (k : Nat)
    (h : infoGet l₁ k = none) :
    infoGet (l₁ ++ l₂) k = infoGet l₂ k := by
  induction l₁ with
  | nil => rfl
  | cons p r ih =>
      rw [infoGet] at h
      by_cases hp : p.1 = k
      · rw [if_pos hp] at h
        exact absurd h (by simp)
      · rw [if_neg hp] at h
        rw [List.cons_append, infoGet, if_neg hp]
        exact ih h

theorem infoGet_entries_not_mem (f : Nat × Nat → RankInfo) (ranks : List Nat) :
    ∀ (n k : Nat), k ∉ ranks →
      infoGet ((ranks.enumFrom n).map (fun q => (q.2, f q))) k = none := by
  induction ranks with
  | nil => intro n k _; rfl
  | cons r rs ih =>
      intro n k hk
      rw [List.mem_cons] at hk
      push_neg at hk
      rw [List.enumFrom_cons, List.map_cons, infoGet,
        if_neg (fun h => hk.1 h.symm)]
      exact ih (n + 1) k hk.2

theorem infoGet_entries_at (f : Nat × Nat → RankInfo) (r₁ : List Nat) :
    ∀ (r₂ : List Nat) (n k : Nat), k ∉ r₁ →
      infoGet (((r₁ ++ k :: r₂).enumFrom n).map (fun q => (q.2, f q))) k
        = some (f (n + r₁.length, k)) := by
  induction r₁ with
  | nil =>
      intro r₂ n k _
      rw [List.nil_append, List.enumFrom_cons, List.map_cons, infoGet,
        if_pos rfl]
      simp
  | cons a r₁' ih =>
      intro r₂ n k hk
      rw [List.mem_cons] at hk
      push_neg at hk
      rw [List.cons_append, List.enumFrom_cons, List.map_cons, infoGet,
        if_neg (fun h => hk.1 h.symm), ih r₂ (n + 1) k hk.2]
      have harith : n + 1 + r₁'.length = n + (a :: r₁').length := by
        simp [List.length_cons]
        omega
      rw [harith]

theorem not_mem_left_of_nodup_middle {α : Type} {l₁ l₂ : List α} {a : α}
    (h : (l₁ ++ a :: l₂).Nodup) : a ∉ l₁ := fun ha =>
  List.disjoint_of_nodup_append h ha (List.mem_cons_self a l₂)

theorem infoGet_specAux (M : HostMap) (m₁ : HostMap) :
    ∀ (pre m₂ : HostMap) (hst : String) (r₁ r₂ : List Nat) (k : Nat),
      k ∉ allRanks m₁ → k ∉ r₁ →
      infoGet (finalizeSpecAux M pre (m₁ ++ (hst, r₁ ++ k :: r₂) :: m₂)) k =
        some ⟨countAtLeast (pre ++ m₁) r₁.length, countAtLeast M r₁.length,
          r₁.length, (r₁ ++ k :: r₂).length⟩ := by
  induction m₁ with
  | nil =>
      intro pre m₂ hst r₁ r₂ k _ hk₁
      rw [List.nil_append, finalizeSpecAux, List.enum_eq_enumFrom]
      have he := infoGet_entries_at
        (fun q => (⟨countAtLeast pre q.1, countAtLeast M q.1, q.1,
          (r₁ ++ k :: r₂).length⟩ : RankInfo)) r₁ r₂ 0 k hk₁
      rw [infoGet_append_some _ _ k _ he]
      simp
  | cons p m₁' ih =>
      intro pre m₂ hst r₁ r₂ k hkm hk₁
      rw [allRanks_cons, List.mem_append] at hkm
      push_neg at hkm
      rw [List.cons_append, finalizeSpecAux, List.enum_eq_enumFrom]
      have hn := infoGet_entries_not_mem
        (fun q => (⟨countAtLeast pre q.1, countAtLeast M q.1, q.1,
          p.2.length⟩ : RankInfo)) p.2 0 k hkm.1
      rw [infoGet_append_none _ _ k hn, ih (pre ++ [p]) m₂ hst r₁ r₂ k hkm.2 hk₁]
      have hap : (pre ++ [p]) ++ m₁' = pre ++ p :: m₁' := by simp
      rw [hap]

theorem local_fields_at (M : HostMap) (hnd : (allRanks M).Nodup)
    (p : String × List Nat) (hp : p ∈ M) (j : Nat) (hj : j < p.2.length) :
    (infoGet (finalize_registration M) (p.2.get ⟨j, hj⟩)).map
        (fun i => (i.HOROVOD_LOCAL_RANK, i.HOROVOD_LOCAL_SIZE))
      = some (j, p.2.length) := by
  obtain ⟨m₁, m₂, hM⟩ := List.append_of_mem hp
  have hsplit : p.2 = p.2.take j ++ p.2.get ⟨j, hj⟩ :: p.2.drop (j + 1) := by
    conv_lhs => rw [← List.take_append_drop j p.2]
    rw [List.drop_eq_getElem_cons hj]
    rfl
  have hpair : (p.1, p.2.take j ++ p.2.get ⟨j, hj⟩ :: p.2.drop (j + 1)) = p := by
    rw [← hsplit]
  have hMdecomp : M =
      m₁ ++ (p.1, p.2.take j ++ p.2.get ⟨j, hj⟩ :: p.2.drop (j + 1)) :: m₂ := by
    rw [hM, hpair]
  have hflat : allRanks M =
      (allRanks m₁ ++ p.2.take j) ++
        p.2.get ⟨j, hj⟩ :: (p.2.drop (j + 1) ++ allRanks m₂) := by
    rw [hMdecomp, allRanks_append, allRanks_cons]
    simp only [List.append_assoc, List.cons_append]
  have hknotl := not_mem_left_of_nodup_middle (hflat ▸ hnd)
  rw [List.mem_append] at hknotl
  push_neg at hknotl
  rw [finalize_registration_eq_specAux M hnd, hMdecomp,
    infoGet_specAux _ m₁ [] m₂ p.1 (p.2.take j) (p.2.drop (j + 1))
      (p.2.get ⟨j, hj⟩) hknotl.1 hknotl.2]
  have hlen₁ : (p.2.take j).length = j := by
    simp [List.length_take]
    omega
  have hlen₂ :
      (p.2.take j ++ p.2.get ⟨j, hj⟩ :: p.2.drop (j + 1)).length = p.2.length := by
    rw [← hsplit]
  simp [hlen₁, hlen₂]

/-- Claim C2 (amended: the world ranks passed to `register` are pairwise
distinct, as the orchestrator guarantees): `world_size` equals the sum,
over one worker per host (the first registered), of the
`HOROVOD_LOCAL_SIZE` that `finalize_registration` assigns to it; and the
workers registered under each host receive `HOROVOD_LOCAL_RANK` values
forming the contiguous range `0..local_size-1`, where local_size is the
length of that host's list. -/
theorem claim_C2 (regs : List (String × Nat))
    (hnd : (regs.map Prod.snd).Nodup) :
    world_size (runRegs regs) =
      ((runRegs regs).map (fun p =>
        infoLocalSize (finalize_registration (runRegs regs)) p.2.headI)).sum
    ∧ ∀ p ∈ runRegs regs,
        p.2.map (fun k => infoLocalRank (finalize_registration (runRegs regs)) k)
          = List.range p.2.length
        ∧ ∀ k ∈ p.2,
            infoLocalSize (finalize_registration (runRegs regs)) k
              = p.2.length := by
  have hn := nodup_allRanks_runRegs regs hnd
  have key : ∀ p ∈ runRegs regs, ∀ (j : Nat) (hj : j < p.2.length),
      infoLocalRank (finalize_registration (runRegs regs)) (p.2.get ⟨j, hj⟩) = j
      ∧ infoLocalSize (finalize_registration (runRegs regs)) (p.2.get ⟨j, hj⟩)
          = p.2.length := by
    intro p hp j hj
    have h := local_fields_at (runRegs regs) hn p hp j hj
    cases hopt : infoGet (finalize_registration (runRegs regs))
        (p.2.get ⟨j, hj⟩) with
    | none => rw [hopt] at h; exact Option.noConfusion h
    | some i =>
        rw [hopt] at h
        have h2 : (i.HOROVOD_LOCAL_RANK, i.HOROVOD_LOCAL_SIZE)
            = (j, p.2.length) := Option.some.inj h
        have hl : i.HOROVOD_LOCAL_RANK = j := congrArg Prod.fst h2
        have hs : i.HOROVOD_LOCAL_SIZE = p.2.length := congrArg Prod.snd h2
        refine ⟨?_, ?_⟩
        · unfold infoLocalRank
          rw [hopt]
          exact hl
        · unfold infoLocalSize
          rw [hopt]
          exact hs
  refine ⟨?_, ?_⟩
  · have hmapeq : (runRegs regs).map (fun p =>
        infoLocalSize (finalize_registration (runRegs regs)) p.2.headI)
        = (runRegs regs).map (fun p => p.2.length) := by
      apply List.map_congr_left
      intro p hp
      obtain ⟨ph, pl⟩ := p
      have hne := runRegs_lists_ne_nil regs (ph, pl) hp
      cases pl with
      | nil => exact absurd rfl hne
      | cons a t =>
          have h0 : 0 < ((ph, a :: t) : String × List Nat).2.length := by simp
          exact (key (ph, a :: t) hp 0 h0).2
    rw [hmapeq, world_size]
  · intro p hp
    refine ⟨?_, ?_⟩
    · apply List.ext_getElem
      · simp
      · intro i h1 h2
        rw [List.getElem_map, List.getElem_range]
        have hi : i < p.2.length := by simpa using h1
        have := (key p hp i hi).1
        simpa using this
    · intro k hk
      obtain ⟨j, hj, hkj⟩ := List.getElem_of_mem hk
      rw [← hkj]
      have := (key p hp j hj).2
      simpa using this

/-- Witness for claim C2 at the registration sequence `A:0, A:1, B:2`. -/
theorem claim_C2_witness :
    world_size (runRegs [("A", 0), ("A", 1), ("B", 2)]) =
      ((runRegs [("A", 0), ("A", 1), ("B", 2)]).map (fun p =>
        infoLocalSize
          (finalize_registration (runRegs [("A", 0), ("A", 1), ("B", 2)]))
          p.2.headI)).sum :=
  (claim_C2 [("A", 0), ("A", 1), ("B", 2)] (by decide)).1

/-- Counterexample to claim C2 as stated (over every sequence of `register`
calls): registering world rank 0 three times (twice under host A, once
under host B) makes `world_size = 3`, while the surviving `rank_to_info`
entry reports `local_size = 1` for every host's first worker, so the sum
of local sizes over one worker per host is 2. -/
theorem claim_C2_counterexample :
    world_size (runRegs [("A", 0), ("A", 0), ("B", 0)]) ≠
      ((runRegs [("A", 0), ("A", 0), ("B", 0)]).map (fun p =>
        infoLocalSize
          (finalize_registration (runRegs [("A", 0), ("A", 0), ("B", 0)]))
          p.2.headI)).sum := by decide

/-- Claim C3 (amended: the code assigns world rank 1 the cross size 2, not
1, since both hosts A and B have at least 2 registered workers): for the
registration sequence `A:0, A:1, A:2, B:3, B:4`, `finalize_registration`
returns rank 0 → (cross 0/2, local 0/3), rank 1 → (cross 0/2, local 1/3),
rank 3 → (cross 1/2, local 0/2), rank 4 → local 1 of 2, and the entry at
local rank 2 (world rank 2) has cross size 1. -/
theorem claim_C3 :
    infoGet (finalize_registration (runRegs
        [("A", 0), ("A", 1), ("A", 2), ("B", 3), ("B", 4)])) 0
      = some ⟨0, 2, 0, 3⟩
    ∧ infoGet (finalize_registration (runRegs
        [("A", 0), ("A", 1), ("A", 2), ("B", 3), ("B", 4)])) 1
      = some ⟨0, 2, 1, 3⟩
    ∧ infoGet (finalize_registration (runRegs
        [("A", 0), ("A", 1), ("A", 2), ("B", 3), ("B", 4)])) 3
      = some ⟨1, 2, 0, 2⟩
    ∧ (infoGet (finalize_registration (runRegs
        [("A", 0), ("A", 1), ("A", 2), ("B", 3), ("B", 4)])) 4).map
        (fun i => (i.HOROVOD_LOCAL_RANK, i.HOROVOD_LOCAL_SIZE))
      = some (1, 2)
    ∧ (infoGet (finalize_registration (runRegs
        [("A", 0), ("A", 1), ("A", 2), ("B", 3), ("B", 4)])) 2).map
        (fun i => (i.HOROVOD_LOCAL_RANK, i.HOROVOD_CROSS_SIZE))
      = some (2, 1) := by decide

/-- Counterexample to claim C3 as stated: the claim expects world rank 1 to
receive cross size 1, but the code's `cross_sizes[1]` after the full pass
counts both hosts (A and B each have at least two workers), so world rank 1
receives cross size 2. -/
theorem claim_C3_counterexample :
    (infoGet (finalize_registration (runRegs
        [("A", 0), ("A", 1), ("A", 2), ("B", 3), ("B", 4)])) 1).map
      (fun i => i.HOROVOD_CROSS_SIZE) ≠ some 1 := by decide

/-- Claim C7: `finalize_registration` reads but never writes the host map,
so calling it twice in a row from any state reachable by `register` calls
yields identical outputs. -/
theorem claim_C7 (regs : List (String × Nat)) :
    (finalize_registrationS (finalize_registrationS (runRegs regs)).2).1
      = (finalize_registrationS (runRegs regs)).1
    ∧ (finalize_registrationS (runRegs regs)).2 = runRegs regs :=
  ⟨rfl, rfl⟩

/-- Claim C4 (amended: "supplied"/"set" is Python truthiness, so a value of
0 counts as not supplied): the constructor validation fails exactly when
both `num_workers` and `num_hosts` are `None`, or both are truthy, or
`gpus_per_worker` is truthy while `use_gpu` is false, or `use_gpu` is true
and `gpus_per_worker` is an integer less than 1; in particular
`num_workers=4, num_hosts=2` fails and `gpus_per_worker=2, use_gpu=False`
fails. -/
theorem claim_C4 (nw nh : Option Int) (ug : Bool) (gw : Option Int) :
    (raises (rayExecutorValidate nw nh ug gw) = true ↔
      ((nw = none ∧ nh = none) ∨ (truthy nw = true ∧ truthy nh = true)
        ∨ (truthy gw = true ∧ ug = false)
        ∨ (ug = true ∧ ∃ g, gw = some g ∧ g < 1)))
    ∧ raises (rayExecutorValidate (some 4) (some 2) false none) = true
    ∧ raises (rayExecutorValidate (some 4) none false (some 2)) = true := by
  refine ⟨?_, by decide, by decide⟩
  cases nw <;> cases nh <;> cases gw <;> cases ug <;>
    simp only [rayExecutorValidate, truthy, raises] <;>
    split_ifs <;> simp_all

/-- Counterexample to claim C4 as stated: `num_workers=4` and `num_hosts=0`
are both supplied, yet no error is raised, because `if num_workers and
num_hosts:` treats 0 as falsy; likewise `gpus_per_worker=0` with
`use_gpu=False` is accepted. -/
theorem claim_C4_counterexample :
    raises (rayExecutorValidate (some 4) (some 0) false none) = false
    ∧ raises (rayExecutorValidate (some 4) none false (some 0)) = false := by
  decide

/-! ## Strategy worker spawning -/

theorem filter_spawn_flatMap (S W b : Nat) (bs : List Nat) (hnd : bs.Nodup) :
    (bs.flatMap (fun bi => (List.range W).map (fun i =>
        (⟨bi, W * bi + i, S⟩ : SpawnedWorker)))).filter
      (fun w => w.bundle_index == b)
    = if b ∈ bs then
        (List.range W).map (fun i => (⟨b, W * b + i, S⟩ : SpawnedWorker))
      else [] := by
  induction bs with
  | nil => simp
  | cons c cs ih =>
      rw [List.flatMap_cons, List.filter_append,
        ih (List.nodup_cons.mp hnd).2, List.filter_map]
      have hpred : ((fun w : SpawnedWorker => w.bundle_index == b) ∘ fun i =>
          (⟨c, W * c + i, S⟩ : SpawnedWorker)) = fun _ : Nat => (c == b) := rfl
      rw [hpred]
      by_cases hcb : c = b
      · subst hcb
        have hb1 : c ∈ c :: cs := List.mem_cons_self c cs
        have hb2 : c ∉ cs := (List.nodup_cons.mp hnd).1
        rw [if_pos hb1, if_neg hb2, List.append_nil]
        simp
      · have hmem : b ∈ c :: cs ↔ b ∈ cs := by
          rw [List.mem_cons]
          constructor
          · rintro (rfl | h)
            · exact absurd rfl hcb
            · exact h
          · exact Or.inr
        simp [hcb, hmem]

/-- Claim C5: in the Spread (colocated) strategy, exactly
`num_workers_per_host` workers are spawned on each bundle
`b < num_hosts`, and the i-th worker spawned on bundle `b` gets world rank
`b * num_workers_per_host + i`. -/
theorem claim_C5 (num_hosts num_workers_per_host b : Nat)
    (hb : b < num_hosts) :
    (colocated_create_workers num_hosts num_workers_per_host).filter
      (fun w => w.bundle_index == b)
    = (List.range num_workers_per_host).map (fun i =>
        (⟨b, b * num_workers_per_host + i,
          num_hosts * num_workers_per_host⟩ : SpawnedWorker)) := by
  rw [colocated_create_workers,
    filter_spawn_flatMap _ _ b _ (List.nodup_range num_hosts),
    if_pos (List.mem_range.mpr hb)]
  simp [Nat.mul_comm]

/-- Witness for claim C5: two hosts, three workers per host, bundle 1. -/
theorem claim_C5_witness :
    (colocated_create_workers 2 3).filter (fun w => w.bundle_index == 1)
      = (List.range 3).map (fun i => (⟨1, 1 * 3 + i, 2 * 3⟩ : SpawnedWorker)) :=
  claim_C5 2 3 1 (by decide)

theorem range_flatMap_add (W : Nat) :
    ∀ (H : Nat), (List.range H).flatMap (fun b =>
        (List.range W).map (fun i => W * b + i)) = List.range (H * W) := by
  intro H
  induction H with
  | zero => simp
  | succ H ih =>
      rw [List.range_succ, List.flatMap_append, ih, List.flatMap_singleton,
        Nat.succ_mul, List.range_add]
      congr 1
      apply List.map_congr_left
      intro i _
      simp [Nat.mul_comm]

theorem colocated_map_world_rank (H W : Nat) :
    (colocated_create_workers H W).map (fun w => w.world_rank)
      = List.range (H * W) := by
  rw [colocated_create_workers, List.map_flatMap]
  have hfun : (fun b => ((List.range W).map (fun i =>
      (⟨b, W * b + i, H * W⟩ : SpawnedWorker))).map (fun w => w.world_rank))
      = fun b => (List.range W).map (fun i => W * b + i) := by
    funext b
    rw [List.map_map]
    rfl
  rw [hfun, range_flatMap_add]

/-- Claim C10: for both strategies, the worker at index `j` of the list
returned by `create_workers` is the one spawned with `world_rank = j`;
hence the orchestrator, which registers workers under their list index,
agrees with the spawn-time world rank, and `execute_single`, which uses
`self.workers[0]`, operates on the world-rank-0 worker. -/
theorem claim_C10 (H W n j : Nat) :
    (∀ hj : j < (colocated_create_workers H W).length,
        ((colocated_create_workers H W).get ⟨j, hj⟩).world_rank = j)
    ∧ ∀ hj : j < (pack_create_workers n).length,
        ((pack_create_workers n).get ⟨j, hj⟩).world_rank = j := by
  constructor
  · intro hj
    have hmap := colocated_map_world_rank H W
    have hlen : (colocated_create_workers H W).length = H * W := by
      have := congrArg List.length hmap
      simpa using this
    have h1 : ((colocated_create_workers H W).map
        (fun w => w.world_rank))[j]? = some j := by
      rw [hmap]
      exact List.getElem?_range (by omega)
    rw [List.getElem?_map, List.getElem?_eq_getElem hj] at h1
    exact Option.some.inj h1
  · intro hj
    simp [pack_create_workers]

/-- Witness for claim C10 at two hosts of three workers (index 2), and at
four packed workers (index 2). -/
theorem claim_C10_witness :
    ((colocated_create_workers 2 3).get ⟨2, by decide⟩).world_rank = 2
    ∧ ((pack_create_workers 4).get ⟨2, by decide⟩).world_rank = 2 :=
  ⟨(claim_C10 2 3 4 2).1 (by decide), (claim_C10 2 3 4 2).2 (by decide)⟩

/-! ## GPU-visibility reconciliation -/

/-- Claim C6: on any bundle in GPU mode, the reconciliation fails (raises
`AssertionError`) exactly when the concatenated device-id lists of that
bundle's workers are not `num_workers_per_host` pairwise-distinct ids; and
when the check passes, every worker of the bundle is pushed the full
concatenated id list. -/
theorem claim_C6 (W : Nat) (ls : List (List Int)) :
    (reconcile_gpu_ids W ls = none ↔
      ¬ ((ls.flatMap (fun l => l)).Nodup
          ∧ (ls.flatMap (fun l => l)).length = W))
    ∧ ∀ env, reconcile_gpu_ids W ls = some env →
        env.length = ls.length ∧ ∀ e ∈ env, e = ls.flatMap (fun l => l) := by
  have hiff : ((ls.flatMap (fun l => l)).length
        = (ls.flatMap (fun l => l)).dedup.length
      ∧ (ls.flatMap (fun l => l)).dedup.length = W) ↔
      ((ls.flatMap (fun l => l)).Nodup
        ∧ (ls.flatMap (fun l => l)).length = W) := by
    constructor
    · rintro ⟨h1, h2⟩
      have hd : (ls.flatMap (fun l => l)).dedup = ls.flatMap (fun l => l) :=
        (List.dedup_sublist _).eq_of_length h1.symm
      exact ⟨List.dedup_eq_self.mp hd, h1.trans h2⟩
    · rintro ⟨h1, h2⟩
      rw [List.dedup_eq_self.mpr h1]
      exact ⟨rfl, h2⟩
  constructor
  · simp only [reconcile_gpu_ids]
    split_ifs with hc
    · exact iff_of_false (by simp) (fun hnP => hnP (hiff.mp hc))
    · exact iff_of_true rfl (fun hP => hc (hiff.mpr hP))
  · intro env henv
    simp only [reconcile_gpu_ids] at henv
    split_ifs at henv with hc
    · have heq := Option.some.inj henv
      rw [← heq]
      refine ⟨by simp, ?_⟩
      intro e he
      obtain ⟨_, _, rfl⟩ := List.mem_map.mp he
      rfl

/-- Witness for claim C6: two workers reporting devices 0 and 1; the check
passes and both workers receive the full list `[0, 1]`. -/
theorem claim_C6_witness :
    ([[(0 : Int), 1], [0, 1]] : List (List Int)).length
        = ([[(0 : Int)], [1]] : List (List Int)).length
    ∧ ∀ e ∈ ([[(0 : Int), 1], [0, 1]] : List (List Int)),
        e = ([[(0 : Int)], [1]] : List (List Int)).flatMap (fun l => l) :=
  (claim_C6 2 [[0], [1]]).2 [[0, 1], [0, 1]] (by decide)

/-! ## Placement-group acquisition timeout -/

/-- Claim C8: when the bounded wait for the bundle group does not succeed,
`create_placement_group` raises a timeout error (rather than returning a
group), and the error message reports both the scheduler's currently
available resources and the requested bundles. -/
theorem claim_C8 (resources_per_bundle : List (String × Nat))
    (num_bundles pg_timeout : Nat) (pg_strategy : String) (available : String) :
    ∃ msg, create_placement_group resources_per_bundle num_bundles pg_timeout
        pg_strategy false available = Except.error msg
      ∧ containsStr msg available
      ∧ containsStr msg (bundlesRepr ((List.range num_bundles).map
          (fun _ => resources_per_bundle))) := by
  refine ⟨_, rfl, ?_, ?_⟩
  · refine ⟨"Placement group creation timed out. Make sure your cluster either has "
        ++ "enough resources or use an autoscaling cluster. Current resources "
        ++ "available: ",
      ", resources requested by the placement group: "
        ++ bundlesRepr ((List.range num_bundles).map
          (fun _ => resources_per_bundle)), ?_⟩
    rw [String.append_assoc]
  · refine ⟨"Placement group creation timed out. Make sure your cluster either has "
        ++ "enough resources or use an autoscaling cluster. Current resources "
        ++ "available: " ++ available
        ++ ", resources requested by the placement group: ", "", ?_⟩
    rw [String.append_empty]

/-! ## One worker per distinct host -/

theorem hostWorkerMapSet_mem (m : List (String × RayWorker)) (k : String)
    (w : RayWorker) :
    ∀ p ∈ hostWorkerMapSet m k w, p = (k, w) ∨ p ∈ m := by
  induction m with
  | nil =>
      intro p hp
      simp only [hostWorkerMapSet, List.mem_singleton] at hp
      exact Or.inl hp
  | cons q r ih =>
      intro p hp
      by_cases hq : q.1 = k
      · simp only [hostWorkerMapSet, if_pos hq, List.mem_cons] at hp
        rcases hp with hp | hp
        · exact Or.inl hp
        · exact Or.inr (List.mem_cons_of_mem _ hp)
      · simp only [hostWorkerMapSet, if_neg hq, List.mem_cons] at hp
        rcases hp with hp | hp
        · exact Or.inr (hp ▸ List.mem_cons_self _ _)
        · rcases ih p hp with hp | hp
          · exact Or.inl hp
          · exact Or.inr (List.mem_cons_of_mem _ hp)

theorem hostWorkerMapSet_keys (m : List (String × RayWorker)) (k : String)
    (w : RayWorker) (k' : String) :
    (k' ∈ (hostWorkerMapSet m k w).map Prod.fst) ↔
      (k' = k ∨ k' ∈ m.map Prod.fst) := by
  induction m with
  | nil => simp [hostWorkerMapSet]
  | cons q r ih =>
      by_cases hq : q.1 = k
      · simp only [hostWorkerMapSet, if_pos hq, List.map_cons, List.mem_cons]
        rw [hq]
        tauto
      · simp only [hostWorkerMapSet, if_neg hq, List.map_cons, List.mem_cons, ih]
        tauto

theorem hostWorkerMapSet_keys_nodup (m : List (String × RayWorker)) (k : String)
    (w : RayWorker) (hnd : (m.map Prod.fst).Nodup) :
    ((hostWorkerMapSet m k w).map Prod.fst).Nodup := by
  induction m with
  | nil => simp [hostWorkerMapSet]
  | cons q r ih =>
      rw [List.map_cons, List.nodup_cons] at hnd
      by_cases hq : q.1 = k
      · simp only [hostWorkerMapSet, if_pos hq, List.map_cons, List.nodup_cons]
        exact ⟨hq ▸ hnd.1, hnd.2⟩
      · simp only [hostWorkerMapSet, if_neg hq, List.map_cons, List.nodup_cons]
        refine ⟨?_, ih hnd.2⟩
        intro hmem
        rcases (hostWorkerMapSet_keys r k w q.1).mp hmem with h | h
        · exact hq h
        · exact hnd.1 h

theorem hostWorkerMapSet_vals (m : List (String × RayWorker)) (k : String)
    (w : RayWorker) (hw : w.hostname = k)
    (hm : ∀ p ∈ m, p.2.hostname = p.1) :
    ∀ p ∈ hostWorkerMapSet m k w, p.2.hostname = p.1 := by
  intro p hp
  rcases hostWorkerMapSet_mem m k w p hp with hp | hp
  · rw [hp]
    exact hw
  · exact hm p hp

theorem get_node_workers_aux (ws : List RayWorker) :
    ∀ (m : List (String × RayWorker)),
      (m.map Prod.fst).Nodup → (∀ p ∈ m, p.2.hostname = p.1) →
      (((ws.foldl (fun m w => hostWorkerMapSet m w.hostname w) m).map
          Prod.fst).Nodup
      ∧ (∀ p ∈ ws.foldl (fun m w => hostWorkerMapSet m w.hostname w) m,
          p.2.hostname = p.1)
      ∧ (∀ p ∈ ws.foldl (fun m w => hostWorkerMapSet m w.hostname w) m,
          p.2 ∈ ws ∨ p ∈ m)
      ∧ ∀ h : String,
          ((h ∈ (ws.foldl (fun m w => hostWorkerMapSet m w.hostname w) m).map
              Prod.fst) ↔
            (h ∈ m.map Prod.fst ∨ ∃ w ∈ ws, w.hostname = h))) := by
  induction ws with
  | nil =>
      intro m hnd hv
      refine ⟨hnd, hv, fun p hp => Or.inr hp, fun h => ?_⟩
      simp
  | cons w ws ih =>
      intro m hnd hv
      rw [List.foldl_cons]
      obtain ⟨ih1, ih2, ih3, ih4⟩ := ih (hostWorkerMapSet m w.hostname w)
        (hostWorkerMapSet_keys_nodup m w.hostname w hnd)
        (hostWorkerMapSet_vals m w.hostname w rfl hv)
      refine ⟨ih1, ih2, ?_, ?_⟩
      · intro p hp
        rcases ih3 p hp with hp | hp
        · exact Or.inl (List.mem_cons_of_mem _ hp)
        · rcases hostWorkerMapSet_mem m w.hostname w p hp with hp | hp
          · exact Or.inl (hp ▸ List.mem_cons_self _ _)
          · exact Or.inr hp
      · intro h
        rw [ih4 h, hostWorkerMapSet_keys]
        constructor
        · rintro ((rfl | hm) | ⟨x, hx, hxh⟩)
          · exact Or.inr ⟨w, List.mem_cons_self _ _, rfl⟩
          · exact Or.inl hm
          · exact Or.inr ⟨x, List.mem_cons_of_mem _ hx, hxh⟩
        · rintro (hm | ⟨x, hx, hxh⟩)
          · exact Or.inl (Or.inr hm)
          · rcases List.mem_cons.mp hx with rfl | hx
            · exact Or.inl (Or.inl hxh.symm)
            · exact Or.inr ⟨x, hx, hxh⟩

/-- Claim C9: `get_node_workers` returns exactly one handle per distinct
host identity observed among the workers (its hostnames are pairwise
distinct and cover exactly the hostnames of the input), and every returned
handle is one of the input workers. -/
theorem claim_C9 (ws : List RayWorker) :
    ((get_node_workers ws).map (fun w => w.hostname)).Nodup
    ∧ (∀ h : String, (∃ w ∈ get_node_workers ws, w.hostname = h) ↔
        ∃ w ∈ ws, w.hostname = h)
    ∧ ∀ w ∈ get_node_workers ws, w ∈ ws := by
  obtain ⟨h1, h2, h3, h4⟩ := get_node_workers_aux ws [] (by simp) (by simp)
  have hmapeq : (get_node_workers ws).map (fun w => w.hostname)
      = (ws.foldl (fun m w => hostWorkerMapSet m w.hostname w) []).map
          Prod.fst := by
    rw [get_node_workers, List.map_map]
    apply List.map_congr_left
    intro p hp
    exact h2 p hp
  refine ⟨?_, ?_, ?_⟩
  · rw [hmapeq]
    exact h1
  · intro h
    have hkey : (∃ w ∈ get_node_workers ws, w.hostname = h) ↔
        h ∈ (get_node_workers ws).map (fun w => w.hostname) := by
      simp [List.mem_map]
    rw [hkey, hmapeq, h4 h]
    simp
  · intro w hw
    rw [get_node_workers] at hw
    obtain ⟨p, hp, rfl⟩ := List.mem_map.mp hw
    rcases h3 p hp with hp2 | hp2
    · exact hp2
    · simp at hp2

/-- Witness for claim C4: both particular configurations of the claim. -/
theorem claim_C4_witness :
    raises (rayExecutorValidate (some 4) (some 2) false none) = true :=
  (claim_C4 (some 4) (some 2) false none).2.1

/-- Witness for claim C7 at the registration sequence `A:0, B:1`. -/
theorem claim_C7_witness :
    (finalize_registrationS
        (finalize_registrationS (runRegs [("A", 0), ("B", 1)])).2).1
      = (finalize_registrationS (runRegs [("A", 0), ("B", 1)])).1 :=
  (claim_C7 [("A", 0), ("B", 1)]).1

/-- Witness for claim C8: two CPU-only bundles, timed out. -/
theorem claim_C8_witness :
    ∃ msg, create_placement_group [("CPU", 4)] 2 100 "STRICT_SPREAD" false
        "CPU: 8.0" = Except.error msg
      ∧ containsStr msg "CPU: 8.0"
      ∧ containsStr msg (bundlesRepr ((List.range 2).map
          (fun _ => [("CPU", 4)]))) :=
  claim_C8 [("CPU", 4)] 2 100 "STRICT_SPREAD" "CPU: 8.0"

/-- Witness for claim C9: three workers on two hosts. -/
theorem claim_C9_witness :
    ((get_node_workers [⟨"h1", 0⟩, ⟨"h1", 1⟩, ⟨"h2", 2⟩]).map
      (fun w => w.hostname)).Nodup :=
  (claim_C9 [⟨"h1", 0⟩, ⟨"h1", 1⟩, ⟨"h2", 2⟩]).1
